import Mathlib

/-!
Verification of the TPU dialect helpers in
`jaxlib/mosaic/dialect/tpu/tpu_dialect.cc`: the `TiledLayoutAttr`
printer/parser, `TiledLayoutAttr::getAffineMap`, and the divisibility
prover `isGuaranteedDivisible`.

The C++ functions are shallowly embedded: `int64_t` becomes `Int`
(arithmetic here never overflows and the spec mandates at-least-64-bit
integer semantics), MLIR `Value`s are represented by their defining-op
trees (recursion only follows operand edges of the finite dataflow DAG),
and fallible code returns `Option`.
-/

/-- The value attribute of an `arith.constant` op: either an `IntegerAttr`
carrying an integer, or any other attribute kind (float, dense vector, ...),
for which `dyn_cast<IntegerAttr>` fails. -/
inductive ConstAttr where
  | intAttr (i : Int)
  | otherAttr
  deriving DecidableEq

/-- A dataflow value, identified by its defining operation:
`tpu.assume_multiple`, `arith.muli`, `arith.constant`, `arith.index_cast`,
or anything else (other ops, block arguments), treated as unknown.
The expression graph is a finite DAG and `isGuaranteedDivisible` only
follows operand edges, so a value is faithfully represented by the tree
of its transitive operands. -/
inductive EValue where
  | assumeMultipleOp (multiple : Int) (operand : EValue)
  | mulIOp (lhs rhs : EValue)
  | constantOp (attr : ConstAttr)
  | indexCastOp (operand : EValue)
  | unknownOp (id : Nat)
  deriving DecidableEq

/-- `isGuaranteedDivisible` (tpu_dialect.cc lines 187-207).
The fuel divisions `fuel / 2` and `(fuel + 1) / 2` only happen under the
guard `¬ fuel ≤ 0`, where C++ truncating division of `int64_t` agrees with
Lean's `Int` division; for the remainder tests, `x % d == 0` in C++ holds
exactly when `d` divides `x` (for nonzero `d`), which is what Lean's
`x % d == 0` decides as well. -/
def isGuaranteedDivisible (value : EValue) (divisor : Int) (fuel : Int) : Bool :=
  if fuel ≤ 0 then false
  else
    match value with
    | .assumeMultipleOp m _ => m % divisor == 0
    | .mulIOp lhs rhs =>
      -- RHS first, because MLIR canonicalizes constants to the right.
      isGuaranteedDivisible rhs divisor (fuel / 2) ||
      isGuaranteedDivisible lhs divisor ((fuel + 1) / 2)
    | .constantOp attr =>
      match attr with
      | .intAttr i => i % divisor == 0
      | .otherAttr => false
    | .indexCastOp op => isGuaranteedDivisible op divisor (fuel - 1)
    | .unknownOp _ => false

/-- The integer denotation of a value under an assignment `env` of the
unknown (opaque) values: multiplication multiplies, constants denote their
integer, `tpu.assume_multiple` and `arith.index_cast` are value-preserving
(the spec's idealized arbitrary-precision semantics).  A non-integer
constant has no integer denotation; it is given a junk value `0`, which is
harmless because the prover never claims anything about it. -/
def evalValue (env : Nat → Int) : EValue → Int
  | .assumeMultipleOp _ op => evalValue env op
  | .mulIOp lhs rhs => evalValue env lhs * evalValue env rhs
  | .constantOp (.intAttr i) => i
  | .constantOp .otherAttr => 0
  | .indexCastOp op => evalValue env op
  | .unknownOp id => env id

/-- An assignment is consistent with the trusted annotations when, at every
`tpu.assume_multiple` node, the operand's value really is a multiple of the
announced `multiple`. -/
def honestAnnotations (env : Nat → Int) : EValue → Bool
  | .assumeMultipleOp m op =>
    (evalValue env op % m == 0) && honestAnnotations env op
  | .mulIOp lhs rhs => honestAnnotations env lhs && honestAnnotations env rhs
  | .constantOp _ => true
  | .indexCastOp op => honestAnnotations env op
  | .unknownOp _ => true

/-- Number of nodes of the operand tree of a value. -/
def nodeCount : EValue → Nat
  | .assumeMultipleOp _ op => nodeCount op + 1
  | .mulIOp lhs rhs => nodeCount lhs + nodeCount rhs + 1
  | .constantOp _ => 1
  | .indexCastOp op => nodeCount op + 1
  | .unknownOp _ => 1

/-- Step-counting version of `isGuaranteedDivisible`: `gas` bounds the
number of recursive calls and `none` means the budget was exhausted.  Its
agreement with `isGuaranteedDivisible` at `gas = nodeCount value` witnesses
that the recursion terminates after finitely many steps, bounded by the
size of the expression graph. -/
def igdGas : Nat → EValue → Int → Int → Option Bool
  | 0, _, _, _ => none
  | gas + 1, value, divisor, fuel =>
    if fuel ≤ 0 then some false
    else
      match value with
      | .assumeMultipleOp m _ => some (m % divisor == 0)
      | .mulIOp lhs rhs =>
        match igdGas gas rhs divisor (fuel / 2) with
        | none => none
        | some b =>
          if b then some true else igdGas gas lhs divisor ((fuel + 1) / 2)
      | .constantOp attr =>
        match attr with
        | .intAttr i => some (i % divisor == 0)
        | .otherAttr => some false
      | .indexCastOp op => igdGas gas op divisor (fuel - 1)
      | .unknownOp _ => some false

/-- The concrete value of spec §8.7:
`castToIndex(mul(constant(3), mul(constant(4), y)))` with `y` opaque. -/
def scenarioValue : EValue :=
  .indexCastOp (.mulIOp (.constantOp (.intAttr 3))
    (.mulIOp (.constantOp (.intAttr 4)) (.unknownOp 0)))

/-- The affine expressions produced by `getAffineMap`: dimension
references, `floorDiv` by a constant and `mod` by a constant (the only
constructors the source uses). -/
inductive AffineExpr where
  | dim (i : Nat)
  | floorDiv (e : AffineExpr) (c : Int)
  | mod (e : AffineExpr) (c : Int)
  deriving DecidableEq

/-- MLIR `AffineMap` restricted (named `AffMap` to avoid clashing with Mathlib) to what the source builds: a number of
input dimensions and a list of result expressions (no symbols). -/
structure AffMap where
  numDims : Nat
  results : List AffineExpr
  deriving DecidableEq

/-- Substitution of dimension references by the given expressions, as MLIR
`AffineMap::compose` performs on the first map's results (the out-of-range
default can never be hit because `compose` requires
`numDims = numResults` of the composed-with map). -/
def AffineExpr.subst (rs : List AffineExpr) : AffineExpr → AffineExpr
  | .dim i => rs.getD i (.dim i)
  | .floorDiv e c => .floorDiv (AffineExpr.subst rs e) c
  | .mod e c => .mod (AffineExpr.subst rs e) c

/-- MLIR `AffineMap::compose`: `f.compose g` substitutes `g`'s results
into `f`'s dimensions, i.e. it is the map `x ↦ f(g(x))` — `g` is applied
first.  The result keeps `g`'s input arity and `f`'s result count. -/
def AffMap.compose (f g : AffMap) : AffMap :=
  ⟨g.numDims, f.results.map (AffineExpr.subst g.results)⟩

/-- MLIR `AffineMap::getMultiDimIdentityMap`. -/
def multiDimIdentityMap (n : Nat) : AffMap :=
  ⟨n, (List.range n).map AffineExpr.dim⟩

/-- The per-tile map built by the loop body of `getAffineMap`
(tpu_dialect.cc lines 156-174): over `m` input dimensions, with
`u = m - k` untiled prefix dimensions for a tile of rank `k`, the first
`u` results are identities, the next `k` are `d(u+i) floorDiv tile[i]` and
the last `k` are `d(u+i) mod tile[i]`. -/
def mkTileMap (m : Nat) (dims : List Int) : AffMap :=
  ⟨m, ((List.range (m - dims.length)).map AffineExpr.dim)
      ++ (((List.range dims.length).map
            (fun i => AffineExpr.floorDiv
              (AffineExpr.dim ((m - dims.length) + i)) (dims.getD i 0)))
      ++ ((List.range dims.length).map
            (fun i => AffineExpr.mod
              (AffineExpr.dim ((m - dims.length) + i)) (dims.getD i 0))))⟩

/-- A tiled layout descriptor: the tiles (outer to inner, each a list of
dimension sizes) and the tile strides. -/
structure TiledLayoutAttr where
  tiles : List (List Int)
  tile_strides : List Int
  deriving DecidableEq

/-- The loop of `TiledLayoutAttr::getAffineMap` (lines 156-176).  The
`LOG(FATAL)` on a negative untiled-dimension count (an unrecoverable
invariant violation) is modelled as `none`. -/
def getAffineMapGo : AffMap → List (List Int) → Option AffMap
  | map, [] => some map
  | map, tile :: rest =>
    if ((map.results.length : Int) - (tile.length : Int)) < 0 then none
    else
      getAffineMapGo
        (AffMap.compose (mkTileMap map.results.length tile) map) rest

/-- `TiledLayoutAttr::getAffineMap` (lines 152-178): start from the
identity over `tile_strides.size()` dimensions and fold the tiles. -/
def TiledLayoutAttr.getAffineMap (a : TiledLayoutAttr) : Option AffMap :=
  getAffineMapGo (multiDimIdentityMap a.tile_strides.length) a.tiles

/-- Modelled from the spec: the same fold but with the composition order
the spec describes — "the new mapping applied first, i.e., its outputs
feed the previous transform's inputs", that is `map.compose tile_map`
instead of the source's `tile_map.compose map`.  Used only to compare the
claimed order against the source. -/
def getAffineMapGoSpecOrder : AffMap → List (List Int) → Option AffMap
  | map, [] => some map
  | map, tile :: rest =>
    if ((map.results.length : Int) - (tile.length : Int)) < 0 then none
    else
      getAffineMapGoSpecOrder
        (AffMap.compose map (mkTileMap map.results.length tile)) rest

/-- Modelled from the spec: `getAffineMap` with the spec's claimed
composition order (see `getAffineMapGoSpecOrder`). -/
def TiledLayoutAttr.getAffineMapSpecOrder (a : TiledLayoutAttr) : Option AffMap :=
  getAffineMapGoSpecOrder (multiDimIdentityMap a.tile_strides.length) a.tiles

/-- `validTiles m tiles` says that, starting from `m` dimensions, every
tile's rank stays bounded by the current number of results (the successive
untiled-dimension counts `u = m - k` all stay non-negative), `m` growing
by the tile rank at each level exactly as `getAffineMap`'s loop grows the
result count. -/
def validTiles : Nat → List (List Int) → Bool
  | _, [] => true
  | m, tile :: rest =>
    if tile.length ≤ m then validTiles (m + tile.length) rest else false

/-- Evaluation of an affine expression at an environment of dimension
values.  `floorDiv`/`mod` use mathematical floor semantics as MLIR defines
them (for the positive tile sizes of the invariant this coincides with the
usual division). -/
def AffineExpr.eval (env : Nat → Int) : AffineExpr → Int
  | .dim i => env i
  | .floorDiv e c => Int.fdiv (AffineExpr.eval env e) c
  | .mod e c => Int.fmod (AffineExpr.eval env e) c

/-- Evaluation of an affine map: the tuple of its results. -/
def evalMap (f : AffMap) (env : Nat → Int) : List Int :=
  f.results.map (AffineExpr.eval env)

/-- Decimal digits of a natural number, most significant first (standard
decimal printing, as C++ stream output and `absl::StrJoin` produce). -/
def natRepr (n : Nat) : List Char :=
  if n = 0 then ['0'] else (Nat.digits 10 n).reverse.map Nat.digitChar

/-- Decimal printing of an `int64_t`: minus sign for negatives, then the
decimal digits of the absolute value. -/
def intRepr (i : Int) : List Char :=
  if i < 0 then '-' :: natRepr i.natAbs else natRepr i.toNat

/-- The tail of a comma-joined list: `,x1,x2,...`. -/
def commaTail : List (List Char) → List Char
  | [] => []
  | x :: xs => ',' :: (x ++ commaTail xs)

/-- Comma-joined list, as printed by the `if (i > 0) printer << ','` loop
of the printer and by `absl::StrJoin` inside `xla::Tile::ToString`. -/
def joinComma : List (List Char) → List Char
  | [] => []
  | x :: xs => x ++ commaTail xs

/-- Modelled from the spec: `xla::Tile::ToString` (the xla library is not
part of this repository); the spec fixes the printed form of a tile as
`(d0,d1,...)`. -/
def printTile (t : List Int) : List Char :=
  '(' :: (joinComma (t.map intRepr) ++ [')'])

/-- The tiles, printed one after the other with no separator
(`for (const xla::Tile &tile : getTiles()) printer << tile.ToString();`). -/
def printTiles : List (List Int) → List Char
  | [] => []
  | t :: ts => printTile t ++ printTiles ts

/-- `TiledLayoutAttr::print` (tpu_dialect.cc lines 87-100):
`<` tiles `,[` comma-joined strides `]>`. -/
def TiledLayoutAttr.print (a : TiledLayoutAttr) : List Char :=
  '<' :: (printTiles a.tiles ++
    (',' :: ('[' :: (joinComma (a.tile_strides.map intRepr) ++
      (']' :: ('>' :: []))))))

/-- Modelled from the spec: the host `AsmParser` consume-literal /
consume-optional-literal capability over a character stream.  In the
`Option` model the "expected" variants (`parseLess`, `parseComma`,
`parseGreater`) and the probing `parseOptional*` variants coincide:
`some` of the remaining stream on a match, `none` otherwise.  Whitespace
skipping is omitted: all inputs considered here are whitespace-free. -/
def expectChar (c : Char) : List Char → Option (List Char)
  | [] => none
  | x :: t => if x = c then some t else none

/-- Numeric value of a decimal digit character. -/
def digitVal (c : Char) : Nat := c.toNat - '0'.toNat

/-- Longest digit run at the head of the stream, and the rest. -/
def parseDigits : List Char → List Char × List Char
  | [] => ([], [])
  | c :: t =>
    if c.isDigit then (c :: (parseDigits t).1, (parseDigits t).2)
    else ([], c :: t)

/-- Value of a digit run, most significant digit first. -/
def digitsVal (ds : List Char) : Nat :=
  ds.foldl (fun a c => 10 * a + digitVal c) 0

/-- Modelled from the spec: the host `AsmParser` consume-integer
capability (`parseInteger`): an optional minus sign followed by at least
one decimal digit, maximal munch. -/
def parseInteger (s : List Char) : Option (Int × List Char) :=
  match s with
  | [] => none
  | c :: t =>
    if c = '-' then
      if (parseDigits t).1 = [] then none
      else some (-((digitsVal (parseDigits t).1 : Int)), (parseDigits t).2)
    else
      if (parseDigits (c :: t)).1 = [] then none
      else some (((digitsVal (parseDigits (c :: t)).1 : Int)),
        (parseDigits (c :: t)).2)

/-- The two structurally identical integer-list loops of
`TiledLayoutAttr::parse` (lines 108-122 with `close = ')'` for a tile
body, lines 129-142 with `close = ']'` for the strides): while the
closing character is not consumed, expect a separating comma (except
before the first element), then an integer, and append it.  The C++
`while` loop is embedded with a fuel argument; every iteration consumes
at least one character, so fuel `s.length + 1` never runs out before the
loop exits on its own. -/
def parseIntListLoop (close : Char) : Nat → Bool → List Int → List Char →
    Option (List Int × List Char)
  | 0, _, _, _ => none
  | fuel + 1, first, acc, s =>
    match expectChar close s with
    | some t => some (acc, t)
    | none =>
      match (if first then some s else expectChar ',' s) with
      | none => none
      | some s1 =>
        match parseInteger s1 with
        | none => none
        | some (n, s2) => parseIntListLoop close fuel false (acc ++ [n]) s2

/-- The tile loop of `TiledLayoutAttr::parse` (lines 108-123): as long as
an opening parenthesis is consumed, parse one tile body and append it. -/
def parseTilesLoop : Nat → List (List Int) → List Char →
    Option (List (List Int) × List Char)
  | 0, _, _ => none
  | fuel + 1, tiles, s =>
    match expectChar '(' s with
    | none => some (tiles, s)
    | some s1 =>
      match parseIntListLoop ')' (s1.length + 1) true [] s1 with
      | none => none
      | some (dims, s2) => parseTilesLoop fuel (tiles ++ [dims]) s2

/-- `TiledLayoutAttr::parse` (tpu_dialect.cc lines 102-150): `<`, the
tiles, a comma, a mandatory bracketed stride list, `>`.  Every failure
returns `none` (the C++ `return {};`), never a partial descriptor and
with no exception-based control flow. -/
def TiledLayoutAttr.parse (s : List Char) :
    Option (TiledLayoutAttr × List Char) :=
  match expectChar '<' s with
  | none => none
  | some s1 =>
    match parseTilesLoop (s1.length + 1) [] s1 with
    | none => none
    | some (tiles, s2) =>
      match expectChar ',' s2 with
      | none => none
      | some s3 =>
        match expectChar '[' s3 with
        | none => none
        | some s4 =>
          match parseIntListLoop ']' (s4.length + 1) true [] s4 with
          | none => none
          | some (strides, s5) =>
            match expectChar '>' s5 with
            | none => none
            | some s6 => some (⟨tiles, strides⟩, s6)

theorem igd_assume (m : Int) (op : EValue) (d fuel : Int) :
    isGuaranteedDivisible (.assumeMultipleOp m op) d fuel =
      if fuel ≤ 0 then false else m % d == 0 := rfl

theorem igd_mul (l r : EValue) (d fuel : Int) :
    isGuaranteedDivisible (.mulIOp l r) d fuel =
      if fuel ≤ 0 then false
      else
        isGuaranteedDivisible r d (fuel / 2) ||
        isGuaranteedDivisible l d ((fuel + 1) / 2) := rfl

theorem igd_const_int (i : Int) (d fuel : Int) :
    isGuaranteedDivisible (.constantOp (.intAttr i)) d fuel =
      if fuel ≤ 0 then false else i % d == 0 := rfl

theorem igd_const_other (d fuel : Int) :
    isGuaranteedDivisible (.constantOp .otherAttr) d fuel =
      if fuel ≤ 0 then false else false := rfl

theorem igd_cast (op : EValue) (d fuel : Int) :
    isGuaranteedDivisible (.indexCastOp op) d fuel =
      if fuel ≤ 0 then false
      else isGuaranteedDivisible op d (fuel - 1) := rfl

theorem igd_unknown (id : Nat) (d fuel : Int) :
    isGuaranteedDivisible (.unknownOp id) d fuel =
      if fuel ≤ 0 then false else false := rfl

theorem igd_nonpos (v : EValue) (d fuel : Int) (h : fuel ≤ 0) :
    isGuaranteedDivisible v d fuel = false := by
  cases v with
  | assumeMultipleOp m op => rw [igd_assume, if_pos h]
  | mulIOp l r => rw [igd_mul, if_pos h]
  | constantOp a =>
    cases a with
    | intAttr i => rw [igd_const_int, if_pos h]
    | otherAttr => rw [igd_const_other, if_pos h]
  | indexCastOp op => rw [igd_cast, if_pos h]
  | unknownOp id => rw [igd_unknown, if_pos h]

/-- C2: soundness of the divisibility prover.  For every expression graph
(constants, multiplications, index casts, trusted multiple-assumption
annotations, and opaque leaves), every positive divisor and every fuel, if
`isGuaranteedDivisible` returns `true` then every integer assignment of the
opaque values that is consistent with the annotations gives the value an
integer divisible by the divisor. -/
theorem isGuaranteedDivisible_sound (v : EValue) (env : Nat → Int)
    (divisor fuel : Int) (_hd : 0 < divisor)
    (hh : honestAnnotations env v = true)
    (hp : isGuaranteedDivisible v divisor fuel = true) :
    divisor ∣ evalValue env v := by
  induction v generalizing fuel with
  | assumeMultipleOp m op ih =>
    by_cases h0 : fuel ≤ 0
    · rw [igd_nonpos _ _ _ h0] at hp; exact absurd hp (by simp)
    · rw [igd_assume, if_neg h0, beq_iff_eq] at hp
      simp only [honestAnnotations, Bool.and_eq_true, beq_iff_eq] at hh
      have h1 : divisor ∣ m := Int.dvd_of_emod_eq_zero hp
      have h2 : m ∣ evalValue env op := Int.dvd_of_emod_eq_zero hh.1
      simpa [evalValue] using h1.trans h2
  | mulIOp l r ihl ihr =>
    by_cases h0 : fuel ≤ 0
    · rw [igd_nonpos _ _ _ h0] at hp; exact absurd hp (by simp)
    · rw [igd_mul, if_neg h0] at hp
      simp only [honestAnnotations, Bool.and_eq_true] at hh
      simp only [evalValue]
      rw [Bool.or_eq_true] at hp
      rcases hp with h | h
      · exact dvd_mul_of_dvd_right (ihr _ hh.2 h) _
      · exact dvd_mul_of_dvd_left (ihl _ hh.1 h) _
  | constantOp a =>
    cases a with
    | intAttr i =>
      by_cases h0 : fuel ≤ 0
      · rw [igd_nonpos _ _ _ h0] at hp; exact absurd hp (by simp)
      · rw [igd_const_int, if_neg h0, beq_iff_eq] at hp
        simpa [evalValue] using Int.dvd_of_emod_eq_zero hp
    | otherAttr =>
      rw [igd_const_other] at hp
      split at hp <;> exact absurd hp (by simp)
  | indexCastOp op ih =>
    by_cases h0 : fuel ≤ 0
    · rw [igd_nonpos _ _ _ h0] at hp; exact absurd hp (by simp)
    · rw [igd_cast, if_neg h0] at hp
      simp only [honestAnnotations] at hh
      simpa [evalValue] using ih _ hh hp
  | unknownOp id =>
    rw [igd_unknown] at hp
    split at hp <;> exact absurd hp (by simp)

theorem isGuaranteedDivisible_sound_witness :
    (0 : Int) < 3 ∧
    honestAnnotations (fun _ => 0) (.constantOp (.intAttr 6)) = true ∧
    isGuaranteedDivisible (.constantOp (.intAttr 6)) 3 1 = true ∧
    (3 : Int) ∣ evalValue (fun _ => 0) (.constantOp (.intAttr 6)) :=
  ⟨by decide, by decide, by decide,
    isGuaranteedDivisible_sound _ _ _ 1 (by decide) (by decide) (by decide)⟩

/-- C5: fuel monotonicity.  If the prover succeeds with fuel `f1`, it also
succeeds with any larger fuel `f2`. -/
theorem isGuaranteedDivisible_fuel_mono (v : EValue) (divisor f1 f2 : Int)
    (hle : f1 ≤ f2) (h : isGuaranteedDivisible v divisor f1 = true) :
    isGuaranteedDivisible v divisor f2 = true := by
  induction v generalizing f1 f2 with
  | assumeMultipleOp m op ih =>
    by_cases h0 : f1 ≤ 0
    · rw [igd_nonpos _ _ _ h0] at h; exact absurd h (by simp)
    · rw [igd_assume, if_neg h0] at h
      rw [igd_assume, if_neg (by omega)]
      exact h
  | mulIOp l r ihl ihr =>
    by_cases h0 : f1 ≤ 0
    · rw [igd_nonpos _ _ _ h0] at h; exact absurd h (by simp)
    · rw [igd_mul, if_neg h0] at h
      rw [igd_mul, if_neg (show ¬ f2 ≤ 0 by omega)]
      rw [Bool.or_eq_true] at h ⊢
      rcases h with hr | hl
      · exact Or.inl (ihr _ _ (by omega) hr)
      · exact Or.inr (ihl _ _ (by omega) hl)
  | constantOp a =>
    cases a with
    | intAttr i =>
      by_cases h0 : f1 ≤ 0
      · rw [igd_nonpos _ _ _ h0] at h; exact absurd h (by simp)
      · rw [igd_const_int, if_neg h0] at h
        rw [igd_const_int, if_neg (by omega)]
        exact h
    | otherAttr =>
      rw [igd_const_other] at h
      split at h <;> exact absurd h (by simp)
  | indexCastOp op ih =>
    by_cases h0 : f1 ≤ 0
    · rw [igd_nonpos _ _ _ h0] at h; exact absurd h (by simp)
    · rw [igd_cast, if_neg h0] at h
      rw [igd_cast, if_neg (by omega)]
      exact ih _ _ (by omega) h
  | unknownOp id =>
    rw [igd_unknown] at h
    split at h <;> exact absurd h (by simp)

theorem isGuaranteedDivisible_fuel_mono_witness :
    (1 : Int) ≤ 3 ∧
    isGuaranteedDivisible (.constantOp (.intAttr 6)) 2 1 = true ∧
    isGuaranteedDivisible (.constantOp (.intAttr 6)) 2 3 = true :=
  ⟨by decide, by decide,
    isGuaranteedDivisible_fuel_mono _ 2 1 3 (by decide) (by decide)⟩

/-- C7 counterexample: on
`v = castToIndex(mul(constant(3), mul(constant(4), y)))` with `y` opaque,
`isGuaranteedDivisible(v, 12, 4)` returns `false`, not `true` as claimed:
the prover never folds `3 * 4`, it only asks whether a single factor is
divisible, and neither `3`, `4`, nor the opaque `y` is provably divisible
by `12`. -/
theorem divisibility_scenario_counterexample :
    isGuaranteedDivisible scenarioValue 12 4 = false := by decide

/-- C7 amended: for the spec's concrete value
`v = castToIndex(mul(constant(3), mul(constant(4), y)))` with `y` opaque,
`isGuaranteedDivisible(v, 12, 4) = false` (no constant folding happens,
and no single factor is divisible by 12) and
`isGuaranteedDivisible(v, 24, 4) = false`. -/
theorem divisibility_scenario_amended :
    isGuaranteedDivisible scenarioValue 12 4 = false ∧
    isGuaranteedDivisible scenarioValue 24 4 = false := by decide

theorem igdGas_eq (v : EValue) :
    ∀ (gas : Nat) (divisor fuel : Int), nodeCount v ≤ gas →
      igdGas gas v divisor fuel = some (isGuaranteedDivisible v divisor fuel) := by
  induction v with
  | assumeMultipleOp m op ih =>
    intro gas d fuel hg
    cases gas with
    | zero => simp [nodeCount] at hg
    | succ g =>
      by_cases h0 : fuel ≤ 0
      · simp [igdGas, if_pos h0, igd_nonpos _ _ _ h0]
      · rw [igd_assume, if_neg h0]
        simp [igdGas, if_neg h0]
  | mulIOp l r ihl ihr =>
    intro gas d fuel hg
    cases gas with
    | zero => simp [nodeCount] at hg
    | succ g =>
      by_cases h0 : fuel ≤ 0
      · simp [igdGas, if_pos h0, igd_nonpos _ _ _ h0]
      · have hgl : nodeCount l ≤ g := by simp [nodeCount] at hg; omega
        have hgr : nodeCount r ≤ g := by simp [nodeCount] at hg; omega
        rw [igd_mul, if_neg h0]
        simp only [igdGas, if_neg h0]
        rw [ihr g d (fuel / 2) hgr]
        cases hb : isGuaranteedDivisible r d (fuel / 2) with
        | true => simp
        | false => simp [ihl g d ((fuel + 1) / 2) hgl]
  | constantOp a =>
    intro gas d fuel hg
    cases gas with
    | zero => simp [nodeCount] at hg
    | succ g =>
      cases a with
      | intAttr i =>
        by_cases h0 : fuel ≤ 0
        · simp [igdGas, if_pos h0, igd_nonpos _ _ _ h0]
        · rw [igd_const_int, if_neg h0]
          simp [igdGas, if_neg h0]
      | otherAttr =>
        by_cases h0 : fuel ≤ 0
        · simp [igdGas, if_pos h0, igd_nonpos _ _ _ h0]
        · rw [igd_const_other, if_neg h0]
          simp [igdGas, if_neg h0]
  | indexCastOp op ih =>
    intro gas d fuel hg
    cases gas with
    | zero => simp [nodeCount] at hg
    | succ g =>
      by_cases h0 : fuel ≤ 0
      · simp [igdGas, if_pos h0, igd_nonpos _ _ _ h0]
      · have hgo : nodeCount op ≤ g := by simp [nodeCount] at hg; omega
        rw [igd_cast, if_neg h0]
        simp [igdGas, if_neg h0, ih g d (fuel - 1) hgo]
  | unknownOp id =>
    intro gas d fuel hg
    cases gas with
    | zero => simp [nodeCount] at hg
    | succ g =>
      by_cases h0 : fuel ≤ 0
      · simp [igdGas, if_pos h0, igd_nonpos _ _ _ h0]
      · rw [igd_unknown, if_neg h0]
        simp [igdGas, if_neg h0]

/-- C9: termination of the divisibility prover.  For every finite operand
tree and every fuel, the recursion of `isGuaranteedDivisible` completes
within `nodeCount v` recursive calls: the step-counting interpreter
`igdGas`, given that budget, returns `some` of the total function's value
instead of running out of gas. -/
theorem isGuaranteedDivisible_terminates (v : EValue) (divisor fuel : Int) :
    igdGas (nodeCount v) v divisor fuel =
      some (isGuaranteedDivisible v divisor fuel) :=
  igdGas_eq v (nodeCount v) divisor fuel (Nat.le_refl _)

/-- C10: a constant whose value attribute is not an integer attribute is
never claimed divisible: for every divisor and every positive fuel the
prover returns `false`. -/
theorem nonIntConstant_not_divisible (divisor fuel : Int) (h : 0 < fuel) :
    isGuaranteedDivisible (.constantOp .otherAttr) divisor fuel = false := by
  rw [igd_const_other, if_neg (by omega)]

theorem nonIntConstant_not_divisible_witness :
    (0 : Int) < 1 ∧
    isGuaranteedDivisible (.constantOp .otherAttr) 5 1 = false :=
  ⟨by decide, nonIntConstant_not_divisible 5 1 (by decide)⟩

theorem AffineExpr.subst_eval (e : AffineExpr) (rs : List AffineExpr)
    (env : Nat → Int) :
    AffineExpr.eval env (AffineExpr.subst rs e) =
      AffineExpr.eval (fun i => AffineExpr.eval env (rs.getD i (.dim i))) e := by
  induction e with
  | dim i => rfl
  | floorDiv e c ih => simp [AffineExpr.subst, AffineExpr.eval, ih]
  | mod e c ih => simp [AffineExpr.subst, AffineExpr.eval, ih]

theorem getD_map_eval_aux (env : Nat → Int) (rs : List AffineExpr) :
    ∀ (i : Nat) (e : AffineExpr),
      (rs.map (AffineExpr.eval env)).getD i (AffineExpr.eval env e) =
        AffineExpr.eval env (rs.getD i e) := by
  induction rs with
  | nil => intro i e; rfl
  | cons r rs ih =>
    intro i e
    cases i with
    | zero => rfl
    | succ j => exact ih j e

theorem getD_map_eval (rs : List AffineExpr) (env : Nat → Int) (i : Nat) :
    (rs.map (AffineExpr.eval env)).getD i (env i) =
      AffineExpr.eval env (rs.getD i (.dim i)) :=
  getD_map_eval_aux env rs i (.dim i)

theorem evalMap_compose (f g : AffMap) (env : Nat → Int) :
    evalMap (AffMap.compose f g) env =
      evalMap f (fun i => (evalMap g env).getD i (env i)) := by
  unfold evalMap AffMap.compose
  simp only [List.map_map]
  have henv : (fun i => (g.results.map (AffineExpr.eval env)).getD i (env i)) =
      (fun i => AffineExpr.eval env (g.results.getD i (.dim i))) := by
    funext i
    exact getD_map_eval g.results env i
  rw [henv]
  apply List.map_congr_left
  intro e _
  exact AffineExpr.subst_eval e g.results env

theorem compose_mkTileMap_length (map : AffMap) (t : List Int)
    (h : t.length ≤ map.results.length) :
    (AffMap.compose (mkTileMap map.results.length t) map).results.length =
      map.results.length + t.length := by
  simp only [AffMap.compose, mkTileMap, List.length_map, List.length_append,
    List.length_range]
  omega

theorem getAffineMapGo_isSome (tiles : List (List Int)) :
    ∀ map : AffMap,
      (getAffineMapGo map tiles).isSome = validTiles map.results.length tiles := by
  induction tiles with
  | nil => intro map; rfl
  | cons t ts ih =>
    intro map
    simp only [getAffineMapGo, validTiles]
    by_cases h : t.length ≤ map.results.length
    · rw [if_pos h, if_neg (by omega)]
      rw [ih]
      rw [compose_mkTileMap_length map t h]
    · rw [if_neg h, if_pos (by omega)]
      rfl

theorem getAffineMapGo_length (tiles : List (List Int)) :
    ∀ map : AffMap, validTiles map.results.length tiles = true →
      ∃ m', getAffineMapGo map tiles = some m' ∧
        m'.results.length = map.results.length + ((tiles.map List.length).sum) ∧
        m'.numDims = map.numDims := by
  induction tiles with
  | nil =>
    intro map _
    exact ⟨map, rfl, by simp, rfl⟩
  | cons t ts ih =>
    intro map hv
    simp only [validTiles] at hv
    by_cases h : t.length ≤ map.results.length
    · rw [if_pos h] at hv
      obtain ⟨m', h1, h2, h3⟩ :=
        ih (AffMap.compose (mkTileMap map.results.length t) map)
          (by rw [compose_mkTileMap_length map t h]; exact hv)
      refine ⟨m', ?_, ?_, ?_⟩
      · simp only [getAffineMapGo]
        rw [if_neg (by omega)]
        exact h1
      · rw [h2, compose_mkTileMap_length map t h]
        simp only [List.map_cons, List.sum_cons]
        omega
      · exact h3
    · rw [if_neg h] at hv
      exact absurd hv (by simp)

theorem multiDimIdentityMap_results_length (n : Nat) :
    (multiDimIdentityMap n).results.length = n := by
  simp [multiDimIdentityMap]

/-- C3 counterexample: for the descriptor with one rank-1 tile `(2)` and
stride list `[1]`, the map the source computes (`tile_map.compose(map)`,
which applies the accumulated transform first) differs from the map the
claimed order (`map.compose(tile_map)`, new mapping applied first) would
give: the source yields the two results `d0 floorDiv 2, d0 mod 2`, while
the claimed order would keep a single result. -/
theorem compose_order_counterexample :
    TiledLayoutAttr.getAffineMap ⟨[[2]], [1]⟩ =
      some ⟨1, [AffineExpr.floorDiv (.dim 0) 2, AffineExpr.mod (.dim 0) 2]⟩ ∧
    TiledLayoutAttr.getAffineMapSpecOrder ⟨[[2]], [1]⟩ =
      some ⟨1, [AffineExpr.floorDiv (.dim 0) 2]⟩ ∧
    TiledLayoutAttr.getAffineMap ⟨[[2]], [1]⟩ ≠
      TiledLayoutAttr.getAffineMapSpecOrder ⟨[[2]], [1]⟩ := by decide

/-- C3 amended: in `getAffineMap`, each step composes the newly built
per-tile map with the accumulated transform as `tile_map.compose(map)`,
and MLIR composition `f.compose g` applies `g` first; hence the
*accumulated* transform is applied first and the new per-tile mapping is
applied to its outputs (the accumulated transform's outputs feed the new
mapping's inputs). -/
theorem compose_order_amended :
    (∀ (f g : AffMap) (env : Nat → Int),
      evalMap (AffMap.compose f g) env =
        evalMap f (fun i => (evalMap g env).getD i (env i))) ∧
    (∀ (map : AffMap) (tile : List Int) (rest : List (List Int)),
      getAffineMapGo map (tile :: rest) =
        if tile.length ≤ map.results.length then
          getAffineMapGo
            (AffMap.compose (mkTileMap map.results.length tile) map) rest
        else none) := by
  constructor
  · exact evalMap_compose
  · intro map tile rest
    simp only [getAffineMapGo]
    by_cases h : tile.length ≤ map.results.length
    · rw [if_pos h, if_neg (by omega)]
    · rw [if_neg h, if_pos (by omega)]

/-- C4 counterexample: for the descriptor with tiles `(8,128)` and stride
list `[1,8]` (stride-list length `R = 2`), the composed map has output
arity `4`, not `R = 2`: the stride-list length is the map's *input* arity,
and each tile level adds its rank to the output arity. -/
theorem affine_rank_counterexample :
    ((TiledLayoutAttr.getAffineMap ⟨[[8, 128]], [1, 8]⟩).map
        (fun m => m.results.length)) = some 4 ∧
    (⟨[[8, 128]], [1, 8]⟩ : TiledLayoutAttr).tile_strides.length = 2 ∧
    ((TiledLayoutAttr.getAffineMap ⟨[[8, 128]], [1, 8]⟩).map
        (fun m => m.results.length)) ≠
      some (⟨[[8, 128]], [1, 8]⟩ : TiledLayoutAttr).tile_strides.length := by
  decide

/-- C4 amended: for every descriptor whose successive untiled-prefix
computations stay non-negative (`validTiles`), `getAffineMap` succeeds and
the composed formula has output arity `R + (k1 + ... + kn)` and input
arity `R`, where `R` is the stride-list length and the `ki` are the tile
ranks. -/
theorem affine_rank_amended (a : TiledLayoutAttr)
    (h : validTiles a.tile_strides.length a.tiles = true) :
    ∃ m, a.getAffineMap = some m ∧
      m.results.length = a.tile_strides.length + ((a.tiles.map List.length).sum) ∧
      m.numDims = a.tile_strides.length := by
  have h' := getAffineMapGo_length a.tiles
    (multiDimIdentityMap a.tile_strides.length)
    (by rw [multiDimIdentityMap_results_length]; exact h)
  rw [multiDimIdentityMap_results_length] at h'
  exact h'

theorem affine_rank_amended_witness :
    validTiles ((⟨[[8, 128]], [1, 8]⟩ : TiledLayoutAttr).tile_strides.length)
        (⟨[[8, 128]], [1, 8]⟩ : TiledLayoutAttr).tiles = true ∧
    ∃ m, (⟨[[8, 128]], [1, 8]⟩ : TiledLayoutAttr).getAffineMap = some m ∧
      m.results.length =
        (⟨[[8, 128]], [1, 8]⟩ : TiledLayoutAttr).tile_strides.length +
          (((⟨[[8, 128]], [1, 8]⟩ : TiledLayoutAttr).tiles.map List.length).sum) ∧
      m.numDims = (⟨[[8, 128]], [1, 8]⟩ : TiledLayoutAttr).tile_strides.length :=
  ⟨by decide, affine_rank_amended _ (by decide)⟩

/-- C6: the fatal-invariant path.  `getAffineMap` hits the `LOG(FATAL)`
branch (modelled as `none`) exactly when some tile's untiled-prefix count
`u = (current output arity) - (tile rank)` goes negative; for every
descriptor whose tiles keep `u` non-negative at each step (`validTiles`)
the fatal branch is never taken. -/
theorem getAffineMap_fatal_iff (a : TiledLayoutAttr) :
    (a.getAffineMap).isSome = validTiles a.tile_strides.length a.tiles := by
  have h := getAffineMapGo_isSome a.tiles (multiDimIdentityMap a.tile_strides.length)
  rw [multiDimIdentityMap_results_length] at h
  exact h

theorem digitChar_isDigit : ∀ d : Nat, d < 10 → (Nat.digitChar d).isDigit = true := by
  decide

theorem digitVal_digitChar : ∀ d : Nat, d < 10 → digitVal (Nat.digitChar d) = d := by
  decide

theorem digit_ne_minus (c : Char) (h : c.isDigit = true) : ¬(c = '-') := by
  intro hc
  rw [hc] at h
  exact absurd h (by decide)

theorem natRepr_ne_nil (n : Nat) : natRepr n ≠ [] := by
  unfold natRepr
  split
  · simp
  · simp only [ne_eq, List.map_eq_nil_iff, List.reverse_eq_nil_iff]
    exact Nat.digits_ne_nil_iff_ne_zero.mpr (by assumption)

theorem natRepr_all_digit (n : Nat) : ∀ c ∈ natRepr n, c.isDigit = true := by
  intro c hc
  unfold natRepr at hc
  split at hc
  · simp only [List.mem_singleton] at hc
    rw [hc]
    decide
  · simp only [List.mem_map, List.mem_reverse] at hc
    obtain ⟨d, hd, rfl⟩ := hc
    exact digitChar_isDigit d (Nat.digits_lt_base (by norm_num) hd)

theorem parseDigits_append (ds rest : List Char)
    (h1 : ∀ c ∈ ds, c.isDigit = true)
    (h2 : ∀ c, rest.head? = some c → c.isDigit = false) :
    parseDigits (ds ++ rest) = (ds, rest) := by
  induction ds with
  | nil =>
    cases rest with
    | nil => rfl
    | cons c t =>
      have hc := h2 c rfl
      simp [parseDigits, hc]
  | cons c ds ih =>
    have hc := h1 c (by simp)
    have ih' := ih (fun x hx => h1 x (by simp [hx]))
    simp [parseDigits, hc, ih']

theorem foldr_digits_eq_ofDigits (L : List Nat) (hL : ∀ d ∈ L, d < 10) :
    L.foldr (fun d a => 10 * a + digitVal (Nat.digitChar d)) 0 =
      Nat.ofDigits 10 L := by
  induction L with
  | nil => rfl
  | cons d L ih =>
    have hd : d < 10 := hL d (by simp)
    have ih' := ih (fun x hx => hL x (by simp [hx]))
    simp only [List.foldr_cons, ih', digitVal_digitChar d hd, Nat.ofDigits_cons]
    omega

theorem digitsVal_natRepr (n : Nat) : digitsVal (natRepr n) = n := by
  unfold natRepr
  split
  · subst n
    rfl
  · unfold digitsVal
    rw [show (Nat.digits 10 n).reverse.map Nat.digitChar =
        ((Nat.digits 10 n).map Nat.digitChar).reverse by
      rw [List.map_reverse]]
    rw [List.foldl_reverse]
    rw [List.foldr_map]
    have := foldr_digits_eq_ofDigits (Nat.digits 10 n)
      (fun d hd => Nat.digits_lt_base (by norm_num) hd)
    rw [this, Nat.ofDigits_digits]

theorem parseInteger_minus (t : List Char) :
    parseInteger ('-' :: t) =
      (if (parseDigits t).1 = [] then none
       else some (-((digitsVal (parseDigits t).1 : Int)), (parseDigits t).2)) := by
  rfl

theorem parseInteger_nonminus (c : Char) (t : List Char) (h : ¬(c = '-')) :
    parseInteger (c :: t) =
      (if (parseDigits (c :: t)).1 = [] then none
       else some (((digitsVal (parseDigits (c :: t)).1 : Int)),
         (parseDigits (c :: t)).2)) := by
  simp only [parseInteger]
  rw [if_neg h]

theorem parseInteger_append (i : Int) (rest : List Char)
    (h2 : ∀ c, rest.head? = some c → c.isDigit = false) :
    parseInteger ((intRepr i) ++ rest) = some (i, rest) := by
  unfold intRepr
  by_cases hi : i < 0
  · rw [if_pos hi]
    show parseInteger ('-' :: ((natRepr i.natAbs) ++ rest)) = some (i, rest)
    rw [parseInteger_minus]
    rw [parseDigits_append _ _ (natRepr_all_digit _) h2]
    rw [if_neg (natRepr_ne_nil _)]
    rw [digitsVal_natRepr]
    congr 1
    refine Prod.ext ?_ rfl
    show -((i.natAbs : Int)) = i
    omega
  · rw [if_neg hi]
    cases h : natRepr i.toNat with
    | nil => exact absurd h (natRepr_ne_nil _)
    | cons c t =>
      have hall : ∀ x ∈ c :: t, x.isDigit = true := by
        rw [← h]; exact natRepr_all_digit _
      have hc : c.isDigit = true := hall c (by simp)
      show parseInteger (c :: (t ++ rest)) = some (i, rest)
      rw [parseInteger_nonminus c (t ++ rest) (digit_ne_minus c hc)]
      rw [show c :: (t ++ rest) = (c :: t) ++ rest from rfl]
      rw [parseDigits_append _ _ hall h2]
      rw [if_neg (by simp)]
      rw [← h, digitsVal_natRepr]
      congr 1
      refine Prod.ext ?_ rfl
      show ((i.toNat : Int)) = i
      omega

theorem expectChar_cons (x c : Char) (t : List Char) :
    expectChar c (x :: t) = if x = c then some t else none := rfl

theorem intRepr_head_cases (i : Int) :
    ∃ c t, intRepr i = c :: t ∧ (c = '-' ∨ c.isDigit = true) := by
  unfold intRepr
  by_cases hi : i < 0
  · rw [if_pos hi]
    exact ⟨'-', natRepr i.natAbs, rfl, Or.inl rfl⟩
  · rw [if_neg hi]
    cases h : natRepr i.toNat with
    | nil => exact absurd h (natRepr_ne_nil _)
    | cons c t =>
      refine ⟨c, t, rfl, Or.inr ?_⟩
      have hall := natRepr_all_digit i.toNat
      rw [h] at hall
      exact hall c (by simp)

theorem sep_head_nondigit (close : Char) (hnd : close.isDigit = false)
    (xs : List Int) (rest : List Char) :
    ∀ c, ((commaTail (xs.map intRepr)) ++ (close :: rest)).head? = some c →
      c.isDigit = false := by
  cases xs with
  | nil =>
    intro c hc
    simp only [List.map_nil, commaTail, List.nil_append, List.head?_cons,
      Option.some.injEq] at hc
    rw [← hc]
    exact hnd
  | cons x xs =>
    intro c hc
    simp only [List.map_cons, commaTail, List.cons_append, List.head?_cons,
      Option.some.injEq] at hc
    rw [← hc]
    decide

theorem parseIntListLoop_close (close : Char) (f : Nat) (first : Bool)
    (acc : List Int) (rest : List Char) :
    parseIntListLoop close (f + 1) first acc (close :: rest) =
      some (acc, rest) := by
  simp [parseIntListLoop, expectChar_cons]

theorem parseIntListLoop_comma (close : Char) (f : Nat) (acc : List Int)
    (s1 : List Char) (h : ¬(',' = close)) :
    parseIntListLoop close (f + 1) false acc (',' :: s1) =
      (match parseInteger s1 with
       | none => none
       | some (n, s2) => parseIntListLoop close f false (acc ++ [n]) s2) := by
  simp only [parseIntListLoop, expectChar_cons, if_neg h, if_pos rfl]
  rfl

theorem parseIntListLoop_first (close : Char) (f : Nat) (c : Char)
    (t : List Char) (h : ¬(c = close)) :
    parseIntListLoop close (f + 1) true [] (c :: t) =
      (match parseInteger (c :: t) with
       | none => none
       | some (n, s2) => parseIntListLoop close f false [n] s2) := by
  simp only [parseIntListLoop, expectChar_cons, if_neg h]
  rfl

theorem parseIntListLoop_tail (close : Char) (hnd : close.isDigit = false)
    (hnc : ¬(',' = close)) :
    ∀ (xs : List Int) (fuel : Nat), xs.length < fuel →
      ∀ (acc : List Int) (rest : List Char),
        parseIntListLoop close fuel false acc
            ((commaTail (xs.map intRepr)) ++ (close :: rest)) =
          some (acc ++ xs, rest) := by
  intro xs
  induction xs with
  | nil =>
    intro fuel hf acc rest
    cases fuel with
    | zero => omega
    | succ f =>
      show parseIntListLoop close (f + 1) false acc (close :: rest) = _
      rw [parseIntListLoop_close]
      simp
  | cons x xs ih =>
    intro fuel hf acc rest
    cases fuel with
    | zero => omega
    | succ f =>
      have hs : (commaTail ((x :: xs).map intRepr)) ++ (close :: rest) =
          ',' :: ((intRepr x) ++
            ((commaTail (xs.map intRepr)) ++ (close :: rest))) := by
        simp [commaTail, List.cons_append, List.append_assoc]
      rw [hs, parseIntListLoop_comma close f acc _ hnc]
      rw [parseInteger_append x _ (sep_head_nondigit close hnd xs rest)]
      show parseIntListLoop close f false (acc ++ [x])
          ((commaTail (xs.map intRepr)) ++ (close :: rest)) =
        some (acc ++ (x :: xs), rest)
      rw [ih f (by simp at hf; omega) (acc ++ [x]) rest]
      simp

theorem parseIntListLoop_entry (close : Char) (hnd : close.isDigit = false)
    (hnc : ¬(',' = close)) (hnm : ¬(close = '-')) :
    ∀ (xs : List Int) (fuel : Nat), xs.length < fuel → ∀ (rest : List Char),
      parseIntListLoop close fuel true []
          ((joinComma (xs.map intRepr)) ++ (close :: rest)) =
        some (xs, rest) := by
  intro xs fuel hf rest
  cases xs with
  | nil =>
    cases fuel with
    | zero => omega
    | succ f =>
      show parseIntListLoop close (f + 1) true [] (close :: rest) = some ([], rest)
      rw [parseIntListLoop_close]
  | cons x xs =>
    cases fuel with
    | zero => omega
    | succ f =>
      have hs : (joinComma ((x :: xs).map intRepr)) ++ (close :: rest) =
          (intRepr x) ++ ((commaTail (xs.map intRepr)) ++ (close :: rest)) := by
        simp [joinComma, List.append_assoc]
      rw [hs]
      obtain ⟨c, t, hct, hc⟩ := intRepr_head_cases x
      have hcc : ¬(c = close) := by
        rcases hc with h1 | h1
        · rw [h1]
          intro h2
          exact hnm h2.symm
        · intro h2
          rw [h2] at h1
          rw [h1] at hnd
          exact absurd hnd (by simp)
      rw [hct, List.cons_append]
      rw [parseIntListLoop_first close f c _ hcc]
      rw [show c :: (t ++ ((commaTail (xs.map intRepr)) ++ (close :: rest))) =
          (intRepr x) ++ ((commaTail (xs.map intRepr)) ++ (close :: rest)) by
        rw [hct]; rfl]
      rw [parseInteger_append x _ (sep_head_nondigit close hnd xs rest)]
      show parseIntListLoop close f false [x]
          ((commaTail (xs.map intRepr)) ++ (close :: rest)) =
        some (x :: xs, rest)
      rw [parseIntListLoop_tail close hnd hnc xs f (by simp at hf; omega) [x] rest]
      simp

theorem length_intRepr_pos (i : Int) : 0 < (intRepr i).length := by
  obtain ⟨c, t, h, _⟩ := intRepr_head_cases i
  rw [h]
  simp

theorem length_commaTail_ge (xs : List Int) :
    xs.length ≤ (commaTail (xs.map intRepr)).length := by
  induction xs with
  | nil => simp [commaTail]
  | cons x xs ih =>
    simp only [List.map_cons, commaTail, List.length_cons, List.length_append]
    omega

theorem length_joinComma_ge (xs : List Int) :
    xs.length ≤ (joinComma (xs.map intRepr)).length := by
  cases xs with
  | nil => simp [joinComma]
  | cons x xs =>
    have h1 := length_intRepr_pos x
    have h2 := length_commaTail_ge xs
    simp only [List.map_cons, joinComma, List.length_cons, List.length_append]
    omega

theorem length_printTile_ge (t : List Int) :
    t.length + 2 ≤ (printTile t).length := by
  have := length_joinComma_ge t
  simp only [printTile, List.length_cons, List.length_append, List.length_singleton]
  omega

theorem length_printTiles_ge (ts : List (List Int)) :
    ts.length ≤ (printTiles ts).length := by
  induction ts with
  | nil => simp [printTiles]
  | cons t ts ih =>
    have := length_printTile_ge t
    simp only [printTiles, List.length_cons, List.length_append]
    omega

theorem parseTilesLoop_noparen (f : Nat) (tiles : List (List Int))
    (s : List Char) (h : expectChar '(' s = none) :
    parseTilesLoop (f + 1) tiles s = some (tiles, s) := by
  simp only [parseTilesLoop, h]

theorem parseTilesLoop_paren (f : Nat) (tiles : List (List Int))
    (s1 : List Char) :
    parseTilesLoop (f + 1) tiles ('(' :: s1) =
      (match parseIntListLoop ')' (s1.length + 1) true [] s1 with
       | none => none
       | some (dims, s2) => parseTilesLoop f (tiles ++ [dims]) s2) := by
  simp [parseTilesLoop, expectChar_cons]

theorem parseTilesLoop_append (ts : List (List Int)) :
    ∀ (fuel : Nat), ts.length < fuel →
      ∀ (acc : List (List Int)) (rest : List Char),
        expectChar '(' rest = none →
        parseTilesLoop fuel acc ((printTiles ts) ++ rest) =
          some (acc ++ ts, rest) := by
  induction ts with
  | nil =>
    intro fuel hf acc rest hrest
    cases fuel with
    | zero => omega
    | succ f =>
      show parseTilesLoop (f + 1) acc rest = _
      rw [parseTilesLoop_noparen f acc rest hrest]
      simp
  | cons t ts ih =>
    intro fuel hf acc rest hrest
    cases fuel with
    | zero => omega
    | succ f =>
      have hs : (printTiles (t :: ts)) ++ rest =
          '(' :: ((joinComma (t.map intRepr)) ++
            (')' :: ((printTiles ts) ++ rest))) := by
        simp [printTiles, printTile, List.cons_append, List.append_assoc]
      rw [hs, parseTilesLoop_paren]
      have hlen : t.length <
          ((joinComma (t.map intRepr)) ++
            (')' :: ((printTiles ts) ++ rest))).length + 1 := by
        have := length_joinComma_ge t
        simp only [List.length_append, List.length_cons]
        omega
      rw [parseIntListLoop_entry ')' (by decide) (by decide) (by decide)
        t _ hlen ((printTiles ts) ++ rest)]
      show parseTilesLoop f (acc ++ [t]) ((printTiles ts) ++ rest) = _
      rw [ih f (by simp at hf; omega) (acc ++ [t]) rest hrest]
      simp

theorem parse_lt (s1 : List Char) :
    TiledLayoutAttr.parse ('<' :: s1) =
      (match parseTilesLoop (s1.length + 1) [] s1 with
       | none => none
       | some (tiles, s2) =>
         match expectChar ',' s2 with
         | none => none
         | some s3 =>
           match expectChar '[' s3 with
           | none => none
           | some s4 =>
             match parseIntListLoop ']' (s4.length + 1) true [] s4 with
             | none => none
             | some (strides, s5) =>
               match expectChar '>' s5 with
               | none => none
               | some s6 => some (⟨tiles, strides⟩, s6)) := rfl

/-- C1: round-trip law.  Printing any descriptor with
`TiledLayoutAttr::print` and re-parsing the text with
`TiledLayoutAttr::parse` consumes the whole text and returns an equal
descriptor; in particular this holds for every descriptor produced by a
successful parse. -/
theorem tiledLayout_parse_print_roundtrip (a : TiledLayoutAttr) :
    TiledLayoutAttr.parse (TiledLayoutAttr.print a) = some (a, []) := by
  obtain ⟨tiles, strides⟩ := a
  show TiledLayoutAttr.parse
      ('<' :: (printTiles tiles ++
        (',' :: ('[' :: (joinComma (strides.map intRepr) ++
          (']' :: ('>' :: []))))))) = _
  rw [parse_lt]
  have hf1 : tiles.length <
      (printTiles tiles ++
        (',' :: ('[' :: (joinComma (strides.map intRepr) ++
          (']' :: ('>' :: [])))))).length + 1 := by
    have := length_printTiles_ge tiles
    simp only [List.length_append, List.length_cons]
    omega
  have hrest1 : expectChar '('
      (',' :: ('[' :: (joinComma (strides.map intRepr) ++
        (']' :: ('>' :: []))))) = none := by
    rw [expectChar_cons, if_neg (by decide)]
  rw [parseTilesLoop_append tiles _ hf1 []
    (',' :: ('[' :: (joinComma (strides.map intRepr) ++ (']' :: ('>' :: [])))))
    hrest1]
  show (match parseIntListLoop ']'
      ((joinComma (strides.map intRepr) ++ (']' :: ('>' :: []))).length + 1)
      true [] (joinComma (strides.map intRepr) ++ (']' :: ('>' :: []))) with
    | none => none
    | some (strides2, s5) =>
      match expectChar '>' s5 with
      | none => none
      | some s6 => some (TiledLayoutAttr.mk tiles strides2, s6)) =
    some (TiledLayoutAttr.mk tiles strides, ([] : List Char))
  have hf2 : strides.length <
      (joinComma (strides.map intRepr) ++ (']' :: ('>' :: []))).length + 1 := by
    have := length_joinComma_ge strides
    simp only [List.length_append, List.length_cons]
    omega
  rw [parseIntListLoop_entry ']' (by decide) (by decide) (by decide)
    strides _ hf2 ('>' :: [])]
  rfl

/-- C8: the parser rejects malformed input, returning the failure result
(`none`, the C++ null attribute) and never a partial descriptor: a missing
separating comma, an unbalanced parenthesis, a non-integer token where an
integer is expected, a missing opening bracket and a missing closing angle
bracket each fail.  (By construction the embedded parser — like the C++
code, which uses `return {};` everywhere — returns a discriminated
failure, not an exception and not a partially filled descriptor.) -/
theorem parse_rejects_malformed :
    TiledLayoutAttr.parse (String.toList "<(8,128)[1,8]>") = none ∧
    TiledLayoutAttr.parse (String.toList "<(8,128,[1,8]>") = none ∧
    TiledLayoutAttr.parse (String.toList "<(8,a),[1,8]>") = none ∧
    TiledLayoutAttr.parse (String.toList "<(8),[1,8]") = none ∧
    TiledLayoutAttr.parse (String.toList "<(8),1]>") = none := by
  decide
